import Mathlib

set_option linter.unusedSectionVars false
set_option linter.unusedVariables false

/-
Verification of the ancestry-traversal engine and the git installation-path
helpers of this repository.

Part 1 models the Commit Ancestry Walker.  The walker implementation itself
ships outside the excerpt (only its tests are present), so the walker here is
modelled from the specification, section 4.2: a pending FIFO list and a
visited list, both initialised with the tip; each step pops the front of the
pending list, resolves it, appends the unseen parents (checking the visited
list before every enqueue) and yields the popped identifier; resolver errors
are surfaced as the final element of the output sequence.

Part 2 embeds the functions of src/gix-path/src/env/git.rs byte-for-byte:
`first_file_from_config_with_origin`, `config_to_base_path` (with the panic
branch represented as `none`) and `install_config_path` (with the outcome of
the external `git` process invocation made an explicit argument).
-/

namespace Gitoxide

/-- Modelled from the spec: the Decoded Commit View of section 3 together with
the object kinds of the Object Resolver contract (section 6).  Only a commit
carries an ordered parent-identifier list. -/
inductive Decoded (α : Type) where
  | commit (parents : List α)
  | tree
  | blob
  | tag
  deriving DecidableEq

/-- Modelled from the spec: the resolver error taxonomy
`ResolveError ∈ {NotFound, Corrupt, Io}` of section 6. -/
inductive ResolveError where
  | notFound
  | corrupt
  | ioError
  deriving DecidableEq

/-- Modelled from the spec: the traversal error taxonomy of section 7. -/
inductive TraversalError (α : Type) where
  | notFound (id : α)
  | decode (id : α)
  | unexpectedKind (id : α)
  deriving DecidableEq

variable {α : Type} [DecidableEq α]

/-- The identifier carried by a traversal error. -/
def teId : TraversalError α → α
  | .notFound i => i
  | .decode i => i
  | .unexpectedKind i => i

/-- The identifier carried by one element of the output sequence. -/
def outId : Except (TraversalError α) α → α
  | .ok i => i
  | .error te => teId te

/-- The identifiers carried by the output sequence, in order. -/
def outIds (out : List (Except (TraversalError α) α)) : List α := out.map outId

/-- The successfully yielded identifiers of the output sequence, in order. -/
def oks (out : List (Except (TraversalError α) α)) : List α :=
  out.filterMap Except.toOption

/-- Modelled from the spec: step 5 of section 4.2.  Walk the parent list in
order; a parent not yet in the visited list is appended to the visited list
and recorded (in order) for the back of the pending list.  Returns the new
visited list and the newly enqueued identifiers. -/
def addParents (visited : List α) : List α → List α × List α
  | [] => (visited, [])
  | p :: ps =>
    if p ∈ visited then addParents visited ps
    else
      let r := addParents (visited ++ [p]) ps
      (r.1, p :: r.2)

/-- Modelled from the spec: step 4 and step 5 of section 4.2.  Resolve one
identifier; map resolver failures to the traversal error taxonomy, reject
non-commit objects, and expand a commit into its visited-list update. -/
def expand (resolve : α → Except ResolveError (Decoded α)) (visited : List α)
    (id : α) : Except (TraversalError α) (List α × List α) :=
  match resolve id with
  | .error .notFound => .error (.notFound id)
  | .error .corrupt => .error (.decode id)
  | .error .ioError => .error (.decode id)
  | .ok (.commit ps) => .ok (addParents visited ps)
  | .ok .tree => .error (.unexpectedKind id)
  | .ok .blob => .error (.unexpectedKind id)
  | .ok .tag => .error (.unexpectedKind id)

/-- Modelled from the spec: the walker loop of section 4.2, steps 2 to 6,
with an explicit fuel argument; `none` means the fuel ran out before the
traversal finished, `some (out, visited)` is the complete output sequence of
one exhausted traversal together with the final visited list (which records
every identifier ever enqueued, in enqueue order).  An error element is
always final: the sequence terminates with it. -/
def run (resolve : α → Except ResolveError (Decoded α)) :
    Nat → List α → List α → Option (List (Except (TraversalError α) α) × List α)
  | 0, [], visited => some ([], visited)
  | 0, _ :: _, _ => none
  | _ + 1, [], visited => some ([], visited)
  | fuel + 1, id :: rest, visited =>
    match expand resolve visited id with
    | .error te => some ([.error te], visited)
    | .ok (v, newly) =>
      (run resolve fuel (rest ++ newly) v).map fun o => (.ok id :: o.1, o.2)

/-- Modelled from the spec: step 1 of section 4.2 — a traversal starts with
the pending list and the visited list both holding exactly the tip. -/
def ancestors (resolve : α → Except ResolveError (Decoded α)) (fuel : Nat)
    (tip : α) : Option (List (Except (TraversalError α) α) × List α) :=
  run resolve fuel [tip] [tip]

/-- An identifier reachable from the tip by following parent links of
successfully resolved commits (the Ancestor notion of the glossary). -/
inductive Reachable (resolve : α → Except ResolveError (Decoded α)) (tip : α) :
    α → Prop where
  | refl : Reachable resolve tip tip
  | parent {x p : α} {ps : List α} : Reachable resolve tip x →
      resolve x = .ok (.commit ps) → p ∈ ps → Reachable resolve tip p

/-- The merge scenario of section 8: `M→[P1, P2]`, `P1→[G]`, `P2→[G]`,
`G→[]`, encoded as `M = 0`, `P1 = 1`, `P2 = 2`, `G = 3`. -/
def mergeResolve : Nat → Except ResolveError (Decoded Nat) := fun id =>
  if id = 0 then .ok (.commit [1, 2])
  else if id = 1 then .ok (.commit [3])
  else if id = 2 then .ok (.commit [3])
  else if id = 3 then .ok (.commit [])
  else .error .notFound

/-- The linear scenario of section 8: `A→[B]`, `B→[C]`, `C→[]`, extended by
one link to match the four-commit chain of P4: `0→[1]`, `1→[2]`, `2→[3]`,
`3→[]`. -/
def chainResolve : Nat → Except ResolveError (Decoded Nat) := fun id =>
  if id = 0 then .ok (.commit [1])
  else if id = 1 then .ok (.commit [2])
  else if id = 2 then .ok (.commit [3])
  else if id = 3 then .ok (.commit [])
  else .error .notFound

/-- A store whose every object is a root commit (no parents). -/
def rootResolve : Nat → Except ResolveError (Decoded Nat) := fun _ =>
  .ok (.commit [])

/-- A store with a hole: `0→[1, 2]`, `1→[9]`, `2→[3]`, `3→[]`, and the
identifier `9` is absent. -/
def missingResolve : Nat → Except ResolveError (Decoded Nat) := fun id =>
  if id = 0 then .ok (.commit [1, 2])
  else if id = 1 then .ok (.commit [9])
  else if id = 2 then .ok (.commit [3])
  else if id = 3 then .ok (.commit [])
  else .error .notFound

/- Part 2: src/gix-path/src/env/git.rs, with byte strings as `List Nat`. -/

/-- The bytes of `"file:"`. -/
def fileTag : List Nat := [102, 105, 108, 101, 58]

/-- `ByteSlice::find_byte`: index of the first occurrence of a byte. -/
def findByteIdx (b : Nat) : List Nat → Option Nat
  | [] => none
  | x :: xs => if x = b then some 0 else (findByteIdx b xs).map (· + 1)

/-- `trim_with(|c| c == '"')`: drop leading and trailing double-quote bytes
(byte 34). -/
def trimQuotes (l : List Nat) : List Nat :=
  ((l.dropWhile fun c => c = 34).reverse.dropWhile fun c => c = 34).reverse

/-- `first_file_from_config_with_origin` from src/gix-path/src/env/git.rs:
strip the leading `"file:"`, cut at the first tab (byte 9), trim
double-quotes. -/
def first_file_from_config_with_origin (source : List Nat) : Option (List Nat) :=
  if fileTag.isPrefixOf source then
    let file := source.drop fileTag.length
    match findByteIdx 9 file with
    | some endPos => some (trimQuotes (file.take endPos))
    | none => none
  else none

/-- The same function as the specification sentence words it: defined exactly
when the input starts with `"file:"` and a tab occurs after that, returning
the bytes strictly between the tag and the first tab with quotes trimmed. -/
def firstFileSpec (source : List Nat) : Option (List Nat) :=
  if fileTag.isPrefixOf source = true ∧ 9 ∈ source.drop fileTag.length then
    some (trimQuotes ((source.drop fileTag.length).takeWhile fun c => !(c = 9 : Bool)))
  else none

/-- `std::path::Path::parent` on a path given as its component list (an
absolute unix-style path starts with an empty component): the root and the
empty path have no parent; a sole file name has the empty path as parent;
otherwise drop the last component. -/
def pathParent : List String → Option (List String)
  | [] => none
  | [c] => if c = "" then none else some []
  | c :: rest => (pathParent rest).map (c :: ·)

/-- `config_to_base_path` from src/gix-path/src/env/git.rs:
`config_path.parent().expect(..)`, with the panic branch represented as
`none`. -/
def config_to_base_path (configPath : List String) : Option (List String) :=
  pathParent configPath

/-- The possible outcomes of invoking the `git` executable for
`config -l --show-origin` (the external process boundary of `EXE_INFO`):
it ran and produced stdout bytes, it was not found, or another execution
error occurred. -/
inductive GitLookup where
  | found (output : List Nat)
  | notFoundErr
  | otherErr

/-- `EXE_INFO` from src/gix-path/src/env/git.rs in its non-Windows build
(the alternative-location retry is Windows-only, so every invocation error
hits the `Err(_) => return None` arm): on success extract the first
file-origin line, otherwise `None`. -/
def exeInfo : GitLookup → Option (List Nat)
  | .found out => first_file_from_config_with_origin out
  | .notFoundErr => none
  | .otherErr => none

/-- `install_config_path` from src/gix-path/src/env/git.rs in its non-Windows
build (the `EXEPATH` shortcut is Windows-only), with the process-wide
memoisation dropped: the cached value is exactly `EXE_INFO`. -/
def install_config_path (g : GitLookup) : Option (List Nat) := exeInfo g

/-- Bytes of a (pure ASCII) literal, for concrete test inputs. -/
def strBytes (s : String) : List Nat := s.data.map Char.toNat

/- Lemmas about the enqueue step. -/

lemma addParents_fst (v : List α) (ps : List α) :
    (addParents v ps).1 = v ++ (addParents v ps).2 := by
  induction ps generalizing v with
  | nil => simp [addParents]
  | cons p ps ih =>
    by_cases hp : p ∈ v
    · simp [addParents, hp, ih]
    · simp only [addParents, if_neg hp]
      rw [ih (v ++ [p])]
      simp

lemma addParents_fst_nodup (ps : List α) (v : List α) (hv : v.Nodup) :
    (addParents v ps).1.Nodup := by
  induction ps generalizing v with
  | nil => simpa [addParents] using hv
  | cons p ps ih =>
    by_cases hp : p ∈ v
    · simpa [addParents, hp] using ih v hv
    · simp only [addParents, if_neg hp]
      exact ih (v ++ [p]) (by simp [List.nodup_append, hv, hp])

lemma mem_addParents_fst_left {x : α} (v ps : List α) (hx : x ∈ v) :
    x ∈ (addParents v ps).1 := by
  rw [addParents_fst]; exact List.mem_append_left _ hx

lemma mem_addParents_fst_of_parent {x : α} (ps v : List α) (hx : x ∈ ps) :
    x ∈ (addParents v ps).1 := by
  induction ps generalizing v with
  | nil => cases hx
  | cons p ps ih =>
    rcases List.mem_cons.mp hx with rfl | hx
    · by_cases hp : x ∈ v
      · exact mem_addParents_fst_left _ _ hp
      · simp only [addParents, if_neg hp]
        exact mem_addParents_fst_left _ _ (by simp)
    · by_cases hp : p ∈ v
      · simpa [addParents, hp] using ih v hx
      · simp only [addParents, if_neg hp]
        exact ih (v ++ [p]) hx

lemma addParents_snd_subset (ps v : List α) :
    (addParents v ps).2 ⊆ ps := by
  induction ps generalizing v with
  | nil => simp [addParents]
  | cons p ps ih =>
    by_cases hp : p ∈ v
    · simp only [addParents, if_neg, hp, if_pos]
      exact fun x hx => List.mem_cons_of_mem _ (ih v hx)
    · simp only [addParents, if_neg hp]
      intro x hx
      rcases List.mem_cons.mp hx with rfl | hx
      · exact List.mem_cons_self _ _
      · exact List.mem_cons_of_mem _ (ih (v ++ [p]) hx)

/- Lemmas about a single expansion. -/

lemma expand_ok {resolve : α → Except ResolveError (Decoded α)} {v : List α}
    {id : α} {pr : List α × List α} (h : expand resolve v id = .ok pr) :
    ∃ ps, resolve id = .ok (.commit ps) ∧ pr = addParents v ps := by
  cases hres : resolve id with
  | error e => cases e <;> simp [expand, hres] at h
  | ok d =>
    cases d with
    | commit ps =>
      refine ⟨ps, rfl, ?_⟩
      simp [expand, hres] at h
      exact h.symm
    | tree => simp [expand, hres] at h
    | blob => simp [expand, hres] at h
    | tag => simp [expand, hres] at h

lemma expand_err_id {resolve : α → Except ResolveError (Decoded α)} {v : List α}
    {id : α} {te : TraversalError α} (h : expand resolve v id = .error te) :
    teId te = id := by
  cases hres : resolve id with
  | error e => cases e <;> simp only [expand, hres] at h <;>
      simp [← h.symm, teId] <;> cases h <;> rfl
  | ok d =>
    cases d with
    | commit ps => simp [expand, hres] at h
    | tree => cases (by simpa [expand, hres] using h : TraversalError.unexpectedKind id = te) ; rfl
    | blob => cases (by simpa [expand, hres] using h : TraversalError.unexpectedKind id = te) ; rfl
    | tag => cases (by simpa [expand, hres] using h : TraversalError.unexpectedKind id = te) ; rfl

lemma expand_err_not_commit {resolve : α → Except ResolveError (Decoded α)}
    {v : List α} {id : α} {te : TraversalError α}
    (h : expand resolve v id = .error te) (ps : List α) :
    resolve id ≠ .ok (.commit ps) := by
  intro hres
  rw [expand, hres] at h
  cases h

/- Equation lemmas for the walker loop. -/

lemma run_nil (resolve : α → Except ResolveError (Decoded α)) (fuel : Nat)
    (v : List α) : run resolve fuel [] v = some ([], v) := by
  cases fuel <;> rfl

lemma run_cons_error {resolve : α → Except ResolveError (Decoded α)}
    {v : List α} {id : α} {te : TraversalError α} (fuel : Nat) (rest : List α)
    (hex : expand resolve v id = .error te) :
    run resolve (fuel + 1) (id :: rest) v = some ([.error te], v) := by
  simp [run, hex]

lemma run_cons_ok {resolve : α → Except ResolveError (Decoded α)}
    {v : List α} {id : α} {v2 newly : List α} (fuel : Nat) (rest : List α)
    (hex : expand resolve v id = .ok (v2, newly)) :
    run resolve (fuel + 1) (id :: rest) v =
      (run resolve fuel (rest ++ newly) v2).map fun o => (.ok id :: o.1, o.2) := by
  simp [run, hex]

lemma run_zero_cons (resolve : α → Except ResolveError (Decoded α))
    (id : α) (rest v : List α) : run resolve 0 (id :: rest) v = none := rfl

/- Lemmas about the output projections. -/

lemma outIds_cons (e : Except (TraversalError α) α)
    (out : List (Except (TraversalError α) α)) :
    outIds (e :: out) = outId e :: outIds out := rfl

lemma oks_sublist (out : List (Except (TraversalError α) α)) :
    List.Sublist (oks out) (outIds out) := by
  induction out with
  | nil => simp [oks, outIds]
  | cons e out ih =>
    cases e with
    | ok i =>
      simpa [oks, outIds, outId, Except.toOption] using List.Sublist.cons₂ i ih
    | error te =>
      simpa [oks, outIds, Except.toOption] using List.Sublist.cons (outId (.error te)) ih

lemma oks_eq_outIds_of_ok {out : List (Except (TraversalError α) α)}
    (h : ∀ e ∈ out, e.isOk = true) : oks out = outIds out := by
  induction out with
  | nil => rfl
  | cons e out ih =>
    cases e with
    | ok i =>
      simp only [oks, outIds, List.filterMap_cons, List.map_cons, Except.toOption]
      exact congrArg (i :: ·) (ih fun e he => h e (List.mem_cons_of_mem _ he))
    | error te =>
      exact absurd (h _ (List.mem_cons_self _ _)) (by simp [Except.isOk, Except.toBool])

lemma oks_map_ok (pre : List α) : oks (pre.map Except.ok) = pre := by
  induction pre with
  | nil => rfl
  | cons i pre ih => simp [oks, Except.toOption] at ih ⊢; exact ih

lemma oks_append (a b : List (Except (TraversalError α) α)) :
    oks (a ++ b) = oks a ++ oks b := by
  simp [oks]

lemma oks_append_error (pre : List α) (te : TraversalError α) :
    oks (pre.map Except.ok ++ [Except.error te]) = pre := by
  rw [oks_append, oks_map_ok]
  simp [oks, Except.toOption]

lemma outIds_map_ok (pre : List α) : outIds (pre.map Except.ok) = pre := by
  induction pre with
  | nil => rfl
  | cons i pre ih =>
    simp only [List.map_cons, outIds_cons, outId] at ih ⊢
    exact congrArg (i :: ·) ih

lemma outIds_append_error (pre : List α) (te : TraversalError α) :
    outIds (pre.map Except.ok ++ [Except.error te]) = pre ++ [teId te] := by
  have : outIds (pre.map Except.ok ++ [Except.error te]) =
      outIds (pre.map Except.ok) ++ outIds [Except.error te] := by
    simp [outIds]
  rw [this, outIds_map_ok]
  rfl

/-- Master shape lemma: an exhausted run extends the visited list by some
list `q`, and the identifiers it yields, in order, are exactly the former
pending list followed by `q`, save for a suffix `r` of identifiers left
unexpanded when an error cut the traversal short.  The output is either all
successes with nothing left over, or ends with its sole error element. -/
lemma run_shape {resolve : α → Except ResolveError (Decoded α)} :
    ∀ fuel (p v : List α) out vf, run resolve fuel p v = some (out, vf) →
      ∃ q r, vf = v ++ q ∧ p ++ q = outIds out ++ r ∧
        ((r = [] ∧ ∀ e ∈ out, e.isOk = true) ∨
          ∃ (pre : List α) (te : TraversalError α),
            out = pre.map Except.ok ++ [Except.error te]) := by
  intro fuel
  induction fuel with
  | zero =>
    intro p v out vf h
    cases p with
    | nil =>
      rw [run_nil] at h
      obtain ⟨rfl, rfl⟩ : ([] : List (Except (TraversalError α) α)) = out ∧ v = vf := by
        simpa using h
      exact ⟨[], [], by simp, by simp [outIds], Or.inl ⟨rfl, by simp⟩⟩
    | cons id rest => rw [run_zero_cons] at h; cases h
  | succ fuel ih =>
    intro p v out vf h
    cases p with
    | nil =>
      rw [run_nil] at h
      obtain ⟨rfl, rfl⟩ : ([] : List (Except (TraversalError α) α)) = out ∧ v = vf := by
        simpa using h
      exact ⟨[], [], by simp, by simp [outIds], Or.inl ⟨rfl, by simp⟩⟩
    | cons id rest =>
      cases hex : expand resolve v id with
      | error te =>
        rw [run_cons_error fuel rest hex] at h
        obtain ⟨rfl, rfl⟩ :
            ([Except.error te] : List (Except (TraversalError α) α)) = out ∧ v = vf := by
          simpa using h
        refine ⟨[], rest, by simp, ?_, Or.inr ⟨[], te, by simp⟩⟩
        simp [outIds, outId, expand_err_id hex]
      | ok pr =>
        obtain ⟨v2, newly⟩ := pr
        rw [run_cons_ok fuel rest hex] at h
        obtain ⟨⟨out1, vf1⟩, hrec, heq⟩ := Option.map_eq_some'.mp h
        obtain ⟨rfl, rfl⟩ : Except.ok id :: out1 = out ∧ vf1 = vf := by
          simpa using heq
        obtain ⟨ps, hres, hpr⟩ := expand_ok hex
        have hv2 : v2 = v ++ newly := by
          have := addParents_fst v ps
          rw [← hpr] at this
          simpa using this
        obtain ⟨q1, r1, hvf, hout, hdisj⟩ := ih _ _ _ _ hrec
        refine ⟨newly ++ q1, r1, ?_, ?_, ?_⟩
        · rw [hvf, hv2]; simp
        · simp only [outIds_cons, outId, List.cons_append]
          rw [← List.append_assoc, hout]
        · rcases hdisj with ⟨rfl, hall⟩ | ⟨pre, te, rfl⟩
          · refine Or.inl ⟨rfl, ?_⟩
            intro e he
            rcases List.mem_cons.mp he with rfl | he
            · rfl
            · exact hall e he
          · exact Or.inr ⟨id :: pre, te, by simp⟩

/-- The final visited list of an exhausted run is duplicate-free whenever the
initial one is: every identifier is enqueued at most once. -/
lemma run_visited_nodup {resolve : α → Except ResolveError (Decoded α)} :
    ∀ fuel (p v : List α) out vf, v.Nodup →
      run resolve fuel p v = some (out, vf) → vf.Nodup := by
  intro fuel
  induction fuel with
  | zero =>
    intro p v out vf hv h
    cases p with
    | nil => rw [run_nil] at h; cases h; exact hv
    | cons id rest => rw [run_zero_cons] at h; cases h
  | succ fuel ih =>
    intro p v out vf hv h
    cases p with
    | nil => rw [run_nil] at h; cases h; exact hv
    | cons id rest =>
      cases hex : expand resolve v id with
      | error te =>
        rw [run_cons_error fuel rest hex] at h; cases h; exact hv
      | ok pr =>
        obtain ⟨v2, newly⟩ := pr
        rw [run_cons_ok fuel rest hex] at h
        obtain ⟨⟨out1, vf1⟩, hrec, heq⟩ := Option.map_eq_some'.mp h
        obtain ⟨ps, hres, hpr⟩ := expand_ok hex
        have hn : v2.Nodup := by
          have := addParents_fst_nodup ps v hv
          rw [← hpr] at this
          exact this
        have := ih _ _ _ _ hn hrec
        cases heq
        exact this

/-- Everything in the final visited list of an exhausted run is reachable
from the tip, provided the initial visited list is and covers the pending
list. -/
lemma run_visited_reachable {resolve : α → Except ResolveError (Decoded α)}
    {tip : α} :
    ∀ fuel (p v : List α) out vf, (∀ x ∈ p, x ∈ v) →
      (∀ x ∈ v, Reachable resolve tip x) →
      run resolve fuel p v = some (out, vf) →
      ∀ x ∈ vf, Reachable resolve tip x := by
  intro fuel
  induction fuel with
  | zero =>
    intro p v out vf hp hv h
    cases p with
    | nil => rw [run_nil] at h; cases h; exact hv
    | cons id rest => rw [run_zero_cons] at h; cases h
  | succ fuel ih =>
    intro p v out vf hp hv h
    cases p with
    | nil => rw [run_nil] at h; cases h; exact hv
    | cons id rest =>
      cases hex : expand resolve v id with
      | error te =>
        rw [run_cons_error fuel rest hex] at h; cases h; exact hv
      | ok pr =>
        obtain ⟨v2, newly⟩ := pr
        rw [run_cons_ok fuel rest hex] at h
        obtain ⟨⟨out1, vf1⟩, hrec, heq⟩ := Option.map_eq_some'.mp h
        obtain ⟨ps, hres, hpr⟩ := expand_ok hex
        have hv2 : v2 = v ++ newly := by
          have := addParents_fst v ps
          rw [← hpr] at this
          simpa using this
        have hnew : ∀ x ∈ newly, x ∈ ps := by
          intro x hx
          have := addParents_snd_subset ps v
          rw [← hpr] at this
          exact this hx
        have hidr : Reachable resolve tip id := hv id (hp id (by simp))
        have hv2r : ∀ x ∈ v2, Reachable resolve tip x := by
          intro x hx
          rw [hv2] at hx
          rcases List.mem_append.mp hx with hx | hx
          · exact hv x hx
          · exact Reachable.parent hidr hres (hnew x hx)
        have hp2 : ∀ x ∈ rest ++ newly, x ∈ v2 := by
          intro x hx
          rw [hv2]
          rcases List.mem_append.mp hx with hx | hx
          · exact List.mem_append_left _ (hp x (List.mem_cons_of_mem _ hx))
          · exact List.mem_append_right _ hx
        have := ih _ _ _ _ hp2 hv2r hrec
        cases heq
        exact this

/-- Parent closure: for every successfully expanded identifier of the output,
all parents of its commit are in the final visited list. -/
lemma run_closed {resolve : α → Except ResolveError (Decoded α)} :
    ∀ fuel (p v : List α) out vf, run resolve fuel p v = some (out, vf) →
      ∀ x ∈ outIds out, ∀ ps, resolve x = .ok (.commit ps) →
        ∀ y ∈ ps, y ∈ vf := by
  intro fuel
  induction fuel with
  | zero =>
    intro p v out vf h
    cases p with
    | nil =>
      rw [run_nil] at h; cases h
      intro x hx; cases hx
    | cons id rest => rw [run_zero_cons] at h; cases h
  | succ fuel ih =>
    intro p v out vf h
    cases p with
    | nil =>
      rw [run_nil] at h; cases h
      intro x hx; cases hx
    | cons id rest =>
      cases hex : expand resolve v id with
      | error te =>
        rw [run_cons_error fuel rest hex] at h; cases h
        intro x hx ps hres y hy
        have hxs : x = teId te := by
          simpa [outIds, outId] using hx
        rw [hxs, expand_err_id hex] at hres
        exact absurd hres (expand_err_not_commit hex ps)
      | ok pr =>
        obtain ⟨v2, newly⟩ := pr
        rw [run_cons_ok fuel rest hex] at h
        obtain ⟨⟨out1, vf1⟩, hrec, heq⟩ := Option.map_eq_some'.mp h
        obtain ⟨ps0, hres0, hpr⟩ := expand_ok hex
        have hmono : ∀ z ∈ v2, z ∈ vf1 := by
          obtain ⟨q, r, hvf, -, -⟩ := run_shape fuel _ _ _ _ hrec
          intro z hz
          rw [hvf]
          exact List.mem_append_left _ hz
        cases heq
        intro x hx ps hres y hy
        rw [outIds_cons] at hx
        simp only [outId] at hx
        rcases List.mem_cons.mp hx with rfl | hx1
        · have hps : ps = ps0 := by
            rw [hres0] at hres
            cases hres
            rfl
          have : y ∈ (addParents v ps0).1 :=
            mem_addParents_fst_of_parent ps0 v (hps ▸ hy)
          rw [← hpr] at this
          exact hmono y this
        · exact ih _ _ _ _ hrec x hx1 ps hres y hy

/-- Termination: with the reachable identifiers contained in a
duplicate-free list `dom`, fuel `dom.length` lets the run exhaust the
traversal. -/
lemma run_total {resolve : α → Except ResolveError (Decoded α)} {tip : α}
    {dom : List α} (hdom : ∀ x, Reachable resolve tip x → x ∈ dom) :
    ∀ fuel (p v : List α), v.Nodup → (∀ x ∈ p, x ∈ v) →
      (∀ x ∈ v, Reachable resolve tip x) →
      dom.length + p.length ≤ fuel + v.length →
      run resolve fuel p v ≠ none := by
  intro fuel
  induction fuel with
  | zero =>
    intro p v hv hp hr hfuel
    have hsub : v ⊆ dom := fun x hx => hdom x (hr x hx)
    have hlen : v.length ≤ dom.length := (hv.subperm hsub).length_le
    have hp0 : p = [] := List.length_eq_zero.mp (by omega)
    rw [hp0, run_nil]
    exact Option.some_ne_none _
  | succ fuel ih =>
    intro p v hv hp hr hfuel
    cases p with
    | nil =>
      rw [run_nil]
      exact Option.some_ne_none _
    | cons id rest =>
      cases hex : expand resolve v id with
      | error te =>
        rw [run_cons_error fuel rest hex]
        exact Option.some_ne_none _
      | ok pr =>
        obtain ⟨v2, newly⟩ := pr
        rw [run_cons_ok fuel rest hex]
        obtain ⟨ps, hres, hpr⟩ := expand_ok hex
        have hv2 : v2 = v ++ newly := by
          have := addParents_fst v ps
          rw [← hpr] at this
          simpa using this
        have hnew : ∀ x ∈ newly, x ∈ ps := by
          intro x hx
          have := addParents_snd_subset ps v
          rw [← hpr] at this
          exact this hx
        have hn : v2.Nodup := by
          have := addParents_fst_nodup ps v hv
          rw [← hpr] at this
          exact this
        have hidr : Reachable resolve tip id := hr id (hp id (by simp))
        have hv2r : ∀ x ∈ v2, Reachable resolve tip x := by
          intro x hx
          rw [hv2] at hx
          rcases List.mem_append.mp hx with hx | hx
          · exact hr x hx
          · exact Reachable.parent hidr hres (hnew x hx)
        have hp2 : ∀ x ∈ rest ++ newly, x ∈ v2 := by
          intro x hx
          rw [hv2]
          rcases List.mem_append.mp hx with hx | hx
          · exact List.mem_append_left _ (hp x (List.mem_cons_of_mem _ hx))
          · exact List.mem_append_right _ hx
        have hfuel2 : dom.length + (rest ++ newly).length ≤ fuel + v2.length := by
          rw [hv2]
          simp only [List.length_append, List.length_cons] at hfuel ⊢
          omega
        have hne := ih _ _ hn hp2 hv2r hfuel2
        intro hcontra
        exact hne (Option.map_eq_none'.mp hcontra)

/- Corollaries at the traversal entry point. -/

/-- Shape of an exhausted traversal from a tip: the final visited list starts
with the tip and is the yielded identifiers followed by the identifiers left
unexpanded; the output is all successes (nothing left) or ends with its sole
error. -/
lemma ancestors_shape {resolve : α → Except ResolveError (Decoded α)}
    {fuel : Nat} {tip : α} {out : List (Except (TraversalError α) α)}
    {vf : List α} (h : ancestors resolve fuel tip = some (out, vf)) :
    ∃ q r, vf = tip :: q ∧ vf = outIds out ++ r ∧
      ((r = [] ∧ ∀ e ∈ out, e.isOk = true) ∨
        ∃ (pre : List α) (te : TraversalError α),
          out = pre.map Except.ok ++ [Except.error te]) := by
  obtain ⟨q, r, hvf, hpq, hdisj⟩ := run_shape fuel [tip] [tip] out vf h
  exact ⟨q, r, by simpa using hvf, by rw [hvf, hpq], hdisj⟩

/-- The identifiers of the output of an exhausted traversal are
duplicate-free. -/
lemma ancestors_outIds_nodup {resolve : α → Except ResolveError (Decoded α)}
    {fuel : Nat} {tip : α} {out : List (Except (TraversalError α) α)}
    {vf : List α} (h : ancestors resolve fuel tip = some (out, vf)) :
    (outIds out).Nodup := by
  obtain ⟨q, r, hq, hvf, -⟩ := ancestors_shape h
  have hnd : vf.Nodup :=
    run_visited_nodup fuel [tip] [tip] out vf (List.nodup_singleton tip) h
  rw [hvf] at hnd
  exact hnd.of_append_left

/-- Every identifier in the final visited list of a traversal from a tip is
reachable from that tip. -/
lemma ancestors_visited_reachable {resolve : α → Except ResolveError (Decoded α)}
    {fuel : Nat} {tip : α} {out : List (Except (TraversalError α) α)}
    {vf : List α} (h : ancestors resolve fuel tip = some (out, vf)) :
    ∀ x ∈ vf, Reachable resolve tip x := by
  refine run_visited_reachable fuel [tip] [tip] out vf (fun x hx => hx) ?_ h
  intro x hx
  rw [List.mem_singleton] at hx
  exact hx ▸ Reachable.refl

/-- If an error element occurs in the output of an exhausted traversal, it is
the final element, everything before it is the list of successfully yielded
identifiers, and those are exactly the identifiers enqueued strictly before
the failing one. -/
lemma ancestors_error_shape {resolve : α → Except ResolveError (Decoded α)}
    {fuel : Nat} {tip : α} {out : List (Except (TraversalError α) α)}
    {vf : List α} (h : ancestors resolve fuel tip = some (out, vf))
    {te : TraversalError α} (hte : Except.error te ∈ out) :
    ∃ r, vf = oks out ++ teId te :: r ∧
      out = (oks out).map Except.ok ++ [Except.error te] ∧
      teId te ∉ oks out := by
  obtain ⟨q, r, hq, hvf, hdisj⟩ := ancestors_shape h
  have hnd : vf.Nodup :=
    run_visited_nodup fuel [tip] [tip] out vf (List.nodup_singleton tip) h
  rcases hdisj with ⟨-, hall⟩ | ⟨pre, te2, hout⟩
  · have := hall _ hte
    simp [Except.isOk, Except.toBool] at this
  · have hte2 : te = te2 := by
      rw [hout] at hte
      rcases List.mem_append.mp hte with hmem | hmem
      · obtain ⟨a, -, ha⟩ := List.mem_map.mp hmem
        cases ha
      · simpa using hmem
    subst hte2
    have hoks : oks out = pre := by rw [hout]; exact oks_append_error pre te
    have hids : outIds out = pre ++ [teId te] := by
      rw [hout]; exact outIds_append_error pre te
    have hvf2 : vf = pre ++ teId te :: r := by
      rw [hvf, hids]
      simp
    refine ⟨r, ?_, ?_, ?_⟩
    · rw [hoks]; exact hvf2
    · rw [hoks]; exact hout
    · rw [hoks]
      rw [hvf2] at hnd
      intro hmem
      exact (List.disjoint_of_nodup_append hnd) hmem (by simp)

/-- An error-free exhausted traversal yields exactly the reachable
identifiers, without duplicates. -/
lemma ancestors_all_ok_complete {resolve : α → Except ResolveError (Decoded α)}
    {fuel : Nat} {tip : α} {out : List (Except (TraversalError α) α)}
    {vf : List α} (h : ancestors resolve fuel tip = some (out, vf))
    (hall : ∀ e ∈ out, e.isOk = true) :
    (∀ x, Reachable resolve tip x ↔ x ∈ oks out) ∧ (oks out).Nodup := by
  obtain ⟨q, r, hq, hvf, hdisj⟩ := ancestors_shape h
  have hr0 : r = [] := by
    rcases hdisj with ⟨hr0, -⟩ | ⟨pre, te, hout⟩
    · exact hr0
    · have : Except.error te ∈ out := by
        rw [hout]
        exact List.mem_append_right _ (by simp)
      have := hall _ this
      simp [Except.isOk, Except.toBool] at this
  have hids : vf = outIds out := by rw [hvf, hr0]; simp
  have hoks : oks out = outIds out := oks_eq_outIds_of_ok hall
  constructor
  · intro x
    constructor
    · intro hx
      induction hx with
      | refl =>
        rw [hoks, ← hids, hq]
        exact List.mem_cons_self _ _
      | @parent y pz ps hx hres hp ih =>
        have hin : y ∈ outIds out := by rw [← hoks]; exact ih
        have hpz := run_closed fuel [tip] [tip] out vf h y hin ps hres pz hp
        rw [hids] at hpz
        rw [hoks]
        exact hpz
    · intro hx
      have : x ∈ vf := by
        rw [hids, ← hoks]
        exact hx
      exact ancestors_visited_reachable h x this
  · rw [hoks, ← hids]
    exact run_visited_nodup fuel [tip] [tip] out vf (List.nodup_singleton tip) h

/-- Claim C1: in every exhausted traversal over a finite DAG of commits no
identifier appears twice in the output sequence; in particular, for the
merge history `M→[P1, P2]`, `P1→[G]`, `P2→[G]`, `G→[]` the traversal from
`M` yields `G` (encoded as `3`) exactly once and the total output length is
`4`, not `5`. -/
theorem traversal_at_most_once :
    (∀ (β : Type) [inst : DecidableEq β]
        (resolve : β → Except ResolveError (Decoded β)) (fuel : Nat) (tip : β)
        (out : List (Except (TraversalError β) β)) (vf : List β),
        ancestors resolve fuel tip = some (out, vf) → (outIds out).Nodup)
    ∧ ancestors mergeResolve 10 0 =
        some ([Except.ok 0, Except.ok 1, Except.ok 2, Except.ok 3], [0, 1, 2, 3])
    ∧ (outIds ([Except.ok 0, Except.ok 1, Except.ok 2, Except.ok 3] :
        List (Except (TraversalError Nat) Nat))).count 3 = 1
    ∧ ([Except.ok 0, Except.ok 1, Except.ok 2, Except.ok 3] :
        List (Except (TraversalError Nat) Nat)).length = 4 := by
  refine ⟨?_, by rfl, by rfl, by rfl⟩
  intro β instβ resolve fuel tip out vf h
  exact ancestors_outIds_nodup h

/-- Witness for claim C1, instantiating the at-most-once statement on the
merge scenario. -/
theorem traversal_at_most_once_witness :
    (outIds ([Except.ok 0, Except.ok 1, Except.ok 2, Except.ok 3] :
      List (Except (TraversalError Nat) Nat))).Nodup :=
  traversal_at_most_once.1 Nat mergeResolve 10 0
    [Except.ok 0, Except.ok 1, Except.ok 2, Except.ok 3] [0, 1, 2, 3] (by rfl)

/-- Claim C2: a traversal started from a starting identifier that resolves
to a commit yields, as the first element of its output sequence, a success
value equal to the starting identifier itself. -/
theorem traversal_tip_first (resolve : α → Except ResolveError (Decoded α))
    (tip : α) (ps : List α) (fuel : Nat)
    (out : List (Except (TraversalError α) α)) (vf : List α)
    (hres : resolve tip = .ok (.commit ps))
    (h : ancestors resolve fuel tip = some (out, vf)) :
    out.head? = some (.ok tip) := by
  cases fuel with
  | zero =>
    simp only [ancestors] at h
    rw [run_zero_cons] at h
    cases h
  | succ fuel =>
    rcases hpr : addParents [tip] ps with ⟨v2, newly⟩
    have hex : expand resolve [tip] tip = .ok (v2, newly) := by
      simp [expand, hres, hpr]
    simp only [ancestors] at h
    rw [run_cons_ok fuel [] hex] at h
    obtain ⟨⟨out1, vf1⟩, hrec, heq⟩ := Option.map_eq_some'.mp h
    cases heq
    rfl

/-- Witness for claim C2 on the linear scenario. -/
theorem traversal_tip_first_witness :
    ([Except.ok 0, Except.ok 1, Except.ok 2, Except.ok 3] :
      List (Except (TraversalError Nat) Nat)).head? = some (Except.ok 0) :=
  traversal_tip_first chainResolve 0 [1] 10
    [Except.ok 0, Except.ok 1, Except.ok 2, Except.ok 3] [0, 1, 2, 3]
    (by rfl) (by rfl)

/-- Claim C3: an exhausted traversal that is error-free yields every
identifier reachable from the tip exactly once (membership equivalence plus
no duplicates); and whenever an error element occurs, every identifier
enqueued strictly before the failing one (the failing identifier is carried
by the error) has already been yielded, the successes being exactly the
prefix of the enqueue order before that identifier. -/
theorem traversal_completeness (resolve : α → Except ResolveError (Decoded α))
    (tip : α) (fuel : Nat) (out : List (Except (TraversalError α) α))
    (vf : List α) (h : ancestors resolve fuel tip = some (out, vf)) :
    ((∀ e ∈ out, e.isOk = true) →
      (∀ x, Reachable resolve tip x ↔ x ∈ oks out) ∧ (oks out).Nodup)
    ∧ ∀ te : TraversalError α, Except.error te ∈ out →
        ∃ r, vf = oks out ++ teId te :: r ∧
          out = (oks out).map Except.ok ++ [Except.error te] ∧
          teId te ∉ oks out :=
  ⟨fun hall => ancestors_all_ok_complete h hall,
   fun _ hte => ancestors_error_shape h hte⟩

/-- Witness for claim C3 on the merge scenario: the merge base `3` is
yielded because it is reachable. -/
theorem traversal_completeness_witness :
    Reachable mergeResolve 0 3 ↔
      3 ∈ oks ([Except.ok 0, Except.ok 1, Except.ok 2, Except.ok 3] :
        List (Except (TraversalError Nat) Nat)) :=
  ((traversal_completeness mergeResolve 0 10
    [Except.ok 0, Except.ok 1, Except.ok 2, Except.ok 3] [0, 1, 2, 3]
    (by rfl)).1 (by decide)).1 3

/-- Claim C4: for a linear chain `tip → p1 → p2 → p3` of four distinct
commits, each with exactly one parent and `p3` with none, the traversal from
the tip outputs exactly `[tip, p1, p2, p3]` in that order (and terminates
with the visited list `[tip, p1, p2, p3]`). -/
theorem traversal_linear_chain (resolve : α → Except ResolveError (Decoded α))
    (tip p1 p2 p3 : α)
    (h0 : resolve tip = .ok (.commit [p1]))
    (h1 : resolve p1 = .ok (.commit [p2]))
    (h2 : resolve p2 = .ok (.commit [p3]))
    (h3 : resolve p3 = .ok (.commit []))
    (ne01 : tip ≠ p1) (ne02 : tip ≠ p2) (ne03 : tip ≠ p3)
    (ne12 : p1 ≠ p2) (ne13 : p1 ≠ p3) (ne23 : p2 ≠ p3) :
    ancestors resolve 4 tip =
      some ([Except.ok tip, Except.ok p1, Except.ok p2, Except.ok p3],
        [tip, p1, p2, p3]) := by
  have e1 : addParents [tip] [p1] = ([tip, p1], [p1]) := by
    simp [addParents, Ne.symm ne01]
  have e2 : addParents [tip, p1] [p2] = ([tip, p1, p2], [p2]) := by
    simp [addParents, Ne.symm ne02, Ne.symm ne12]
  have e3 : addParents [tip, p1, p2] [p3] = ([tip, p1, p2, p3], [p3]) := by
    simp [addParents, Ne.symm ne03, Ne.symm ne13, Ne.symm ne23]
  have x1 : expand resolve [tip] tip = .ok ([tip, p1], [p1]) := by
    simp [expand, h0, e1]
  have x2 : expand resolve [tip, p1] p1 = .ok ([tip, p1, p2], [p2]) := by
    simp [expand, h1, e2]
  have x3 : expand resolve [tip, p1, p2] p2 = .ok ([tip, p1, p2, p3], [p3]) := by
    simp [expand, h2, e3]
  have x4 : expand resolve [tip, p1, p2, p3] p3 = .ok ([tip, p1, p2, p3], []) := by
    simp [expand, h3, addParents]
  have s4 : run resolve 1 [p3] [tip, p1, p2, p3] =
      some ([Except.ok p3], [tip, p1, p2, p3]) := by
    show run resolve (0 + 1) [p3] [tip, p1, p2, p3] = _
    rw [run_cons_ok 0 [] x4]
    simp [run_nil]
  have s3 : run resolve 2 [p2] [tip, p1, p2] =
      some ([Except.ok p2, Except.ok p3], [tip, p1, p2, p3]) := by
    show run resolve (1 + 1) [p2] [tip, p1, p2] = _
    rw [run_cons_ok 1 [] x3, List.nil_append, s4]
    rfl
  have s2 : run resolve 3 [p1] [tip, p1] =
      some ([Except.ok p1, Except.ok p2, Except.ok p3], [tip, p1, p2, p3]) := by
    show run resolve (2 + 1) [p1] [tip, p1] = _
    rw [run_cons_ok 2 [] x2, List.nil_append, s3]
    rfl
  show run resolve (3 + 1) [tip] [tip] = _
  rw [run_cons_ok 3 [] x1, List.nil_append, s2]
  rfl

/-- Witness for claim C4 on the concrete four-commit chain. -/
theorem traversal_linear_chain_witness :
    ancestors chainResolve 4 0 =
      some ([Except.ok 0, Except.ok 1, Except.ok 2, Except.ok 3], [0, 1, 2, 3]) :=
  traversal_linear_chain chainResolve 0 1 2 3 rfl rfl rfl rfl
    (by decide) (by decide) (by decide) (by decide) (by decide) (by decide)

/-- Claim C5: when a traversal hits an identifier absent from the resolver,
the output yields every ancestor discovered before the missing one, then the
not-found error carrying that identifier as its last element, and then
terminates: nothing follows the error. -/
theorem traversal_missing_terminal (resolve : α → Except ResolveError (Decoded α))
    (tip f : α) (fuel : Nat) (out : List (Except (TraversalError α) α))
    (vf : List α) (h : ancestors resolve fuel tip = some (out, vf))
    (herr : Except.error (TraversalError.notFound f) ∈ out) :
    out = (oks out).map Except.ok ++ [Except.error (TraversalError.notFound f)]
    ∧ (∃ r, vf = oks out ++ f :: r) ∧ f ∉ oks out := by
  obtain ⟨r, hvf, hout, hnot⟩ := ancestors_error_shape h herr
  exact ⟨hout, ⟨r, hvf⟩, hnot⟩

/-- Witness for claim C5 on the store with the hole at `9`. -/
theorem traversal_missing_terminal_witness :
    ([Except.ok 0, Except.ok 1, Except.ok 2,
        Except.error (TraversalError.notFound 9)] :
      List (Except (TraversalError Nat) Nat)) =
      (oks ([Except.ok 0, Except.ok 1, Except.ok 2,
          Except.error (TraversalError.notFound 9)] :
        List (Except (TraversalError Nat) Nat))).map Except.ok ++
        [Except.error (TraversalError.notFound 9)]
    ∧ (∃ r, [0, 1, 2, 9, 3] =
        oks ([Except.ok 0, Except.ok 1, Except.ok 2,
            Except.error (TraversalError.notFound 9)] :
          List (Except (TraversalError Nat) Nat)) ++ 9 :: r)
    ∧ (9 : Nat) ∉ oks ([Except.ok 0, Except.ok 1, Except.ok 2,
        Except.error (TraversalError.notFound 9)] :
      List (Except (TraversalError Nat) Nat)) :=
  traversal_missing_terminal missingResolve 0 9 10
    [Except.ok 0, Except.ok 1, Except.ok 2,
      Except.error (TraversalError.notFound 9)] [0, 1, 2, 9, 3]
    (by rfl) (by simp)

/-- Claim C6: over a finite DAG (all reachable identifiers lying in a list
`dom`) the traversal terminates after at most `dom.length` expansions — the
run is exhausted with that much fuel — and the visited list, which records
every enqueue, holds each identifier at most once (the visited check happens
before every enqueue). -/
theorem traversal_terminates (resolve : α → Except ResolveError (Decoded α))
    (tip : α) (dom : List α)
    (hdom : ∀ x, Reachable resolve tip x → x ∈ dom) :
    ∃ out vf, ancestors resolve dom.length tip = some (out, vf) ∧ vf.Nodup := by
  have hne := run_total hdom dom.length [tip] [tip] (List.nodup_singleton tip)
    (fun x hx => hx)
    (fun x hx => by rw [List.mem_singleton] at hx; exact hx ▸ Reachable.refl)
    (by simp)
  obtain ⟨⟨out, vf⟩, hsome⟩ := Option.ne_none_iff_exists'.mp hne
  exact ⟨out, vf, hsome,
    run_visited_nodup dom.length [tip] [tip] out vf (List.nodup_singleton tip) hsome⟩

/-- Witness for claim C6 on a store of root commits. -/
theorem traversal_terminates_witness :
    ∃ out vf, ancestors rootResolve 1 0 = some (out, vf) ∧ vf.Nodup := by
  have hdom : ∀ x, Reachable rootResolve 0 x → x ∈ [0] := by
    intro x hx
    cases hx with
    | refl => simp
    | @parent y pz ps hr hres hp =>
      simp only [rootResolve] at hres
      cases hres
      cases hp
  have := traversal_terminates rootResolve 0 [0] hdom
  simpa using this

/-- Claim C7: a starting identifier resolving to a commit with zero parents
yields exactly one element — the starting identifier itself — and the
traversal then terminates, for any positive amount of fuel. -/
theorem traversal_root_single (resolve : α → Except ResolveError (Decoded α))
    (tip : α) (h : resolve tip = .ok (.commit [])) (fuel : Nat) :
    ancestors resolve (fuel + 1) tip = some ([Except.ok tip], [tip]) := by
  have hex : expand resolve [tip] tip = .ok ([tip], []) := by
    simp [expand, h, addParents]
  simp only [ancestors]
  rw [run_cons_ok fuel [] hex]
  simp [run_nil]

/-- Witness for claim C7. -/
theorem traversal_root_single_witness :
    ancestors rootResolve 1 5 = some ([Except.ok 5], [5]) :=
  traversal_root_single rootResolve 5 rfl 0

/- Lemmas bridging the byte search of git.rs with its specification-side
description. -/

lemma findByteIdx_eq_none_iff (b : Nat) (l : List Nat) :
    findByteIdx b l = none ↔ b ∉ l := by
  induction l with
  | nil => simp [findByteIdx]
  | cons x xs ih =>
    by_cases hx : x = b
    · subst hx
      simp [findByteIdx]
    · simp [findByteIdx, hx, Option.map_eq_none', ih, Ne.symm hx]

lemma findByteIdx_take (b : Nat) :
    ∀ (l : List Nat) (i : Nat), findByteIdx b l = some i →
      l.take i = l.takeWhile fun c => !(c = b : Bool) := by
  intro l
  induction l with
  | nil => intro i h; cases h
  | cons x xs ih =>
    intro i h
    by_cases hx : x = b
    · subst hx
      simp [findByteIdx] at h
      subst h
      simp
    · simp only [findByteIdx, if_neg hx] at h
      obtain ⟨j, hj, rfl⟩ := Option.map_eq_some'.mp h
      simp [List.takeWhile_cons, hx, ih j hj]

/-- Claim C9: `first_file_from_config_with_origin` coincides with its
specification-side description `firstFileSpec`: it returns a value exactly
when the input starts with `"file:"` and a tab byte occurs after that, and
the value is the bytes strictly between the tag and the first tab with
leading and trailing double-quotes trimmed; any other input gives `none`. -/
theorem first_file_from_config_with_origin_spec (source : List Nat) :
    first_file_from_config_with_origin source = firstFileSpec source := by
  by_cases hpre : fileTag.isPrefixOf source = true
  · cases hfind : findByteIdx 9 (source.drop fileTag.length) with
    | none =>
      have hnot : 9 ∉ source.drop fileTag.length :=
        (findByteIdx_eq_none_iff _ _).mp hfind
      simp [first_file_from_config_with_origin, firstFileSpec, hpre, hfind, hnot]
    | some i =>
      have hmem : 9 ∈ source.drop fileTag.length := by
        by_contra hno
        have := (findByteIdx_eq_none_iff 9 (source.drop fileTag.length)).mpr hno
        rw [this] at hfind
        cases hfind
      have htake := findByteIdx_take 9 (source.drop fileTag.length) i hfind
      simp [first_file_from_config_with_origin, firstFileSpec, hpre, hfind,
        hmem, htake]
  · simp [first_file_from_config_with_origin, firstFileSpec, hpre]

/-- Witness for claim C9 on the linux fixture line of the test. -/
theorem first_file_from_config_with_origin_spec_witness :
    first_file_from_config_with_origin
        (strBytes "file:/home/parallels/.gitconfig\tcore.excludesfile=~/.gitignore\n") =
      firstFileSpec
        (strBytes "file:/home/parallels/.gitconfig\tcore.excludesfile=~/.gitignore\n") :=
  first_file_from_config_with_origin_spec
    (strBytes "file:/home/parallels/.gitconfig\tcore.excludesfile=~/.gitignore\n")

/-- Claim C8: `install_config_path` never fails fatally — it is total with an
optional result: it returns the extracted file-origin path when the git
executable ran and its configuration listing contains a file-origin line, and
`none` when the executable was missing, another execution error occurred, or
no file-origin line exists. -/
theorem install_config_path_spec :
    (∀ (out v : List Nat), first_file_from_config_with_origin out = some v →
      install_config_path (GitLookup.found out) = some v)
    ∧ (∀ out : List Nat, first_file_from_config_with_origin out = none →
      install_config_path (GitLookup.found out) = none)
    ∧ install_config_path GitLookup.notFoundErr = none
    ∧ install_config_path GitLookup.otherErr = none :=
  ⟨fun _ _ h => h, fun _ h => h, rfl, rfl⟩

/-- Witness for claim C8 on a one-line configuration listing. -/
theorem install_config_path_spec_witness :
    first_file_from_config_with_origin
        (strBytes "file:/etc/gitconfig\tuser.name=me") =
      some (strBytes "/etc/gitconfig")
    ∧ install_config_path
        (GitLookup.found (strBytes "file:/etc/gitconfig\tuser.name=me")) =
      some (strBytes "/etc/gitconfig") := by
  have h : first_file_from_config_with_origin
      (strBytes "file:/etc/gitconfig\tuser.name=me") =
      some (strBytes "/etc/gitconfig") := by rfl
  exact ⟨h, install_config_path_spec.1 _ _ h⟩

/-- Claim C10: `config_to_base_path` returns exactly the parent for every
path that has one (the panic branch is unreachable then), and panics
(modelled as `none`) on a parentless path such as the filesystem root; the
four fixture paths of the test map to their parents. -/
theorem config_to_base_path_spec :
    (∀ p q : List String, pathParent p = some q → config_to_base_path p = some q)
    ∧ config_to_base_path [""] = none
    ∧ config_to_base_path ["", "Applications", "Xcode.app", "Contents",
        "Developer", "usr", "share", "git-core", "gitconfig"] =
      some ["", "Applications", "Xcode.app", "Contents", "Developer", "usr",
        "share", "git-core"]
    ∧ config_to_base_path ["C:", "git-sdk-64", "etc", "gitconfig"] =
      some ["C:", "git-sdk-64", "etc"]
    ∧ config_to_base_path ["C:\\ProgramData", "Git", "config"] =
      some ["C:\\ProgramData", "Git"]
    ∧ config_to_base_path ["C:", "Program Files", "Git", "etc", "gitconfig"] =
      some ["C:", "Program Files", "Git", "etc"] :=
  ⟨fun _ _ h => h, by rfl, by rfl, by rfl, by rfl, by rfl⟩

/-- Witness for claim C10. -/
theorem config_to_base_path_spec_witness :
    pathParent ["etc", "gitconfig"] = some ["etc"]
    ∧ config_to_base_path ["etc", "gitconfig"] = some ["etc"] :=
  ⟨by rfl, config_to_base_path_spec.1 ["etc", "gitconfig"] ["etc"] (by rfl)⟩

end Gitoxide
